import Mathlib

/-!
Shallow embedding of the huff0 decoder (`src/huff0/huff0_decoder.rs`):
weight-stream decoding (`read_weights`), canonical Huffman table
construction (`build_table_from_weights`) and the table-driven decoder
state machine (`HuffmanDecoder`).

Machine integers: all arithmetic in the source stays far below the
`u32`/`u64`/`usize` ranges on every input reachable through the public
API (`read_weights` stores at most 257 weights, each weight is a `u8`,
and weights larger than 11 are rejected before they are summed), so
machine integers are modelled as `Nat`; the one place where a `u8` cast
truncates (`symbol as u8` in the table fill) is modelled with `% 256`.

External collaborators (the FSE table builder/decoder and the reversed
bit reader) are not part of this repository slice; they are modelled at
their boundary by oracles (`FSEOracle`): the bytes consumed by the FSE
table build, the decoded symbol streams of the two FSE cursors, the
bits returned for the padding skip, and the reader's remaining-bit
counter after each state update.
-/

set_option maxHeartbeats 1000000
set_option maxRecDepth 10000

namespace Huff0

/-- One slot of the decode table: `Entry { symbol: u8, num_bits: u8 }`. -/
structure Entry where
  symbol : Nat
  num_bits : Nat
deriving DecidableEq, Repr

/-- The error enum `HuffmanTableError`.  Errors coming from the external
collaborators (`GetBitsError`, `FSEDecoderError`, `FSETableError`) are
collapsed into single constructors, and the `assert!` at the end of the
rank-index pass (which panics in Rust) is modelled as the distinguished
outcome `RankIndexAssertFailed`. -/
inductive HuffErr where
  | SourceIsEmpty
  | NotEnoughBytesForWeights (got_bytes expected_bytes : Nat)
  | ExtraPadding (skipped_bits : Nat)
  | TooManyWeights (got : Nat)
  | MissingWeights
  | LeftoverIsNotAPowerOf2 (got : Nat)
  | NotEnoughBytesToDecompressWeights (hve need : Nat)
  | FSETableUsedTooManyBytes (used available_bytes : Nat)
  | NotEnoughBytesInSource (got need : Nat)
  | WeightBiggerThanMaxNumBits (got : Nat)
  | MaxBitsTooHigh (got : Nat)
  | RankIndexAssertFailed
  | FSEError
deriving DecidableEq, Repr

/-- Constant `MAX_MAX_NUM_BITS: u8 = 11`. -/
def MAX_MAX_NUM_BITS : Nat := 11

/-- Source `fn highest_bit_set(x: u32) -> u32 { u32::BITS - x.leading_zeros() }`:
the bit length of `x` as a `u32`, i.e. the number of positions `j < 32`
with `2^j ≤ x`.  (The source asserts `x > 0`; totalised here, the
assertion's safety is the subject of claim C10.) -/
def highest_bit_set (x : Nat) : Nat :=
  (List.range 32).countP (fun j => 2 ^ j ≤ x)

/-- Std `u32::is_power_of_two`, by its documented contract: true iff the value
equals `2^k` for some `k` (necessarily `k < 32` for a `u32`). -/
def is_power_of_two (n : Nat) : Bool :=
  (List.range 32).any (fun k => n == 2 ^ k)

/-- The final `bits_read → bytes_read` rounding of `read_weights`. -/
def bytes_of_bits (bits : Nat) : Nat :=
  if bits % 8 == 0 then bits / 8 else bits / 8 + 1

/-- Boundary model of the external collaborators used by the FSE-compressed
path of `read_weights`. -/
structure FSEOracle where
  /-- outcome of `fse_table.build_decoder`: error, or bytes consumed. -/
  build : Except Unit Nat
  /-- value of the `k`-th `br.get_bits(1)` call of the padding-skip loop
  (taken `% 2`: the reader returns a 1-bit value). -/
  padbit : Nat → Nat
  /-- Value of `dec1.decode_symbol()` when `dec1` has performed `i` state updates. -/
  sym1 : Nat → Nat
  /-- Value of `dec2.decode_symbol()` when `dec2` has performed `i` state updates. -/
  sym2 : Nat → Nat
  /-- Value of `br.bits_remaining()` after `t` total `update_state` calls. -/
  rem : Nat → Int

/-- The padding-skip loop body: `skipped` bits have been consumed so far;
one more bit is read, and the loop exits when that bit is `1` or more
than 8 bits have been consumed.  The loop runs at most 9 times, so fuel
`9` makes the fuel bound unreachable. -/
def skip_padding_go (padbit : Nat → Nat) : Nat → Nat → Nat
  | 0, skipped => skipped
  | fuel + 1, skipped =>
    let val := padbit skipped % 2
    if val = 1 ∨ skipped + 1 > 8 then skipped + 1
    else skip_padding_go padbit fuel (skipped + 1)

/-- Lines 352-364: skip the zero padding of the reversed bit stream and
discard the first `1` found; fail with `ExtraPadding` when more than 8
bits had to be consumed.  Returns the number of bits consumed. -/
def skip_padding (padbit : Nat → Nat) : Except HuffErr Nat :=
  let skipped := skip_padding_go padbit 9 0
  if skipped > 8 then .error (.ExtraPadding skipped) else .ok skipped

/-- Lines 371-397: the dual-cursor FSE decode loop.  `i1`/`i2` count the
state updates already performed by `dec1`/`dec2` (so `sym1 i1` is the
symbol `dec1.decode_symbol()` currently yields, and `i1 + i2` indexes
`rem`), `acc` is `self.weights`.  The loop adds two weights per
iteration and errors as soon as more than 255 have accumulated, so its
depth from an empty accumulator is at most 128; fuel `129` therefore
never runs out (`weights_loop` is always entered with fuel `129` and an
empty accumulator). -/
def weights_loop (sym1 sym2 : Nat → Nat) (rem : Nat → Int) :
    Nat → Nat → Nat → List Nat → Except HuffErr (List Nat)
  | 0, _, _, acc => .error (.TooManyWeights acc.length)
  | fuel + 1, i1, i2, acc =>
    let acc1 := acc ++ [sym1 i1]
    if rem (i1 + 1 + i2) ≤ -1 then .ok (acc1 ++ [sym2 i2])
    else
      let acc2 := acc1 ++ [sym2 i2]
      if rem (i1 + 1 + (i2 + 1)) ≤ -1 then .ok (acc2 ++ [sym1 (i1 + 1)])
      else if acc2.length > 255 then .error (.TooManyWeights acc2.length)
      else weights_loop sym1 sym2 rem fuel (i1 + 1) (i2 + 1) acc2

/-- Lines 300-435: `read_weights`.  Returns the decoded weight sequence
together with the number of bytes consumed from `source`. -/
def read_weights (o : FSEOracle) (source : List Nat) :
    Except HuffErr (List Nat × Nat) :=
  match source with
  | [] => .error .SourceIsEmpty
  | header :: fse_stream =>
    if header ≤ 127 then
      if fse_stream.length < header then
        .error (.NotEnoughBytesForWeights fse_stream.length header)
      else
        match o.build with
        | .error _ => .error .FSEError
        | .ok bytes_used_by_fse_header =>
          if bytes_used_by_fse_header > header then
            .error (.FSETableUsedTooManyBytes bytes_used_by_fse_header header)
          else
            let compressed_length := header - bytes_used_by_fse_header
            if fse_stream.length - bytes_used_by_fse_header < compressed_length then
              .error (.NotEnoughBytesToDecompressWeights
                (fse_stream.length - bytes_used_by_fse_header) compressed_length)
            else
              let bits_read := 8 + (bytes_used_by_fse_header + compressed_length) * 8
              match skip_padding o.padbit with
              | .error e => .error e
              | .ok _ =>
                match weights_loop o.sym1 o.sym2 o.rem 129 0 0 [] with
                | .error e => .error e
                | .ok ws => .ok (ws, bytes_of_bits bits_read)
    else
      let num_weights := header - 127
      let bytes_needed :=
        if num_weights % 2 == 0 then num_weights / 2 else num_weights / 2 + 1
      if fse_stream.length < bytes_needed then
        .error (.NotEnoughBytesInSource fse_stream.length bytes_needed)
      else
        let ws := (List.range num_weights).map (fun idx =>
          if idx % 2 == 0 then fse_stream.getD (idx / 2) 0 >>> 4
          else fse_stream.getD (idx / 2) 0 % 16)
        .ok (ws, bytes_of_bits (8 + 4 * num_weights))

/-- Summand of `weight_sum += if *w > 0 { 1 << (w - 1) } else { 0 }`. -/
def weight_contrib (w : Nat) : Nat := if w > 0 then 2 ^ (w - 1) else 0

/-- Lines 443-449: the accumulated `weight_sum`. -/
def weight_sum_of (ws : List Nat) : Nat := (ws.map weight_contrib).sum

/-- Line 455: `max_bits = highest_bit_set(weight_sum)`. -/
def max_bits_of (ws : List Nat) : Nat := highest_bit_set (weight_sum_of ws)

/-- Line 456: `left_over = (1 << max_bits) - weight_sum`. -/
def left_over_of (ws : List Nat) : Nat :=
  2 ^ max_bits_of ws - weight_sum_of ws

/-- Line 463: `last_weight = highest_bit_set(left_over)`. -/
def last_weight_of (ws : List Nat) : Nat := highest_bit_set (left_over_of ws)

/-- Lines 465-474: per-symbol code lengths — `max_bits + 1 - weight` for the
explicit symbols with nonzero weight, `0` for unused symbols, and
`max_bits + 1 - last_weight` for the implicit symbol at index
`weights.len()`. -/
def bits_list (ws : List Nat) (max_bits last_weight : Nat) : List Nat :=
  ws.map (fun w => if w > 0 then max_bits + 1 - w else 0)
    ++ [max_bits + 1 - last_weight]

/-- The `self.bits` vector a weight sequence produces. -/
def bits_of (ws : List Nat) : List Nat :=
  bits_list ws (max_bits_of ws) (last_weight_of ws)

/-- Lines 496-504: the rank-index starting offsets.  The loop computes
`rank_indexes[max_bits] = 0` and
`rank_indexes[b-1] = rank_indexes[b] + bit_ranks[b] * 2^(max_bits-b)`
downward, so `rank_indexes[b]` is the sum of `bit_ranks[j] * 2^(max_bits-j)`
over `b < j ≤ max_bits`, where `bit_ranks[j]` (lines 481-485) counts the
symbols with code length `j`. -/
def rank_index_init (bitsl : List Nat) (max_bits b : Nat) : Nat :=
  ((List.range' (b + 1) (max_bits - b)).map
    (fun j => bitsl.count j * 2 ^ (max_bits - j))).sum

/-- State of the table-fill loop (lines 513-527): the per-length allocation
cursors (`rank_indexes`, as a total function) and the decode table (as a
total function; slots outside `0..2^max_bits` keep the dummy entry). -/
structure FillSt where
  rank : Nat → Nat
  decode : Nat → Entry

/-- One iteration of the fill loop for `(symbol, bits_for_symbol)`: claim
`2^(max_bits - b)` slots starting at the length-`b` cursor, write
`(symbol as u8, b)` into each, and advance the cursor. -/
def fill_step (max_bits : Nat) (st : FillSt) (symbol b : Nat) : FillSt :=
  if b ≠ 0 then
    let base_idx := st.rank b
    let len := 2 ^ (max_bits - b)
    { rank := fun x => if x = b then base_idx + len else st.rank x
      decode := fun i =>
        if base_idx ≤ i ∧ i < base_idx + len then ⟨symbol % 256, b⟩
        else st.decode i }
  else st

/-- The fill loop after processing symbols `0..n`. -/
def fill_upto (bitsl : List Nat) (max_bits : Nat) : Nat → FillSt
  | 0 =>
    { rank := fun b => rank_index_init bitsl max_bits b
      decode := fun _ => ⟨0, 0⟩ }
  | n + 1 => fill_step max_bits (fill_upto bitsl max_bits n) n (bitsl.getD n 0)

/-- The populated fields of a successfully built `HuffmanTable`. -/
structure HuffmanTable where
  decode : Nat → Entry
  decode_len : Nat
  weights : List Nat
  max_num_bits : Nat
  bits : List Nat

/-- Lines 437-530: `build_table_from_weights`.  The `assert!` that
`rank_indexes[0] == decode.len()` is modelled by the error outcome
`RankIndexAssertFailed` (a panic in Rust). -/
def build_table_from_weights (weights : List Nat) :
    Except HuffErr HuffmanTable :=
  match weights.find? (fun w => MAX_MAX_NUM_BITS < w) with
  | some w => .error (.WeightBiggerThanMaxNumBits w)
  | none =>
    if weight_sum_of weights = 0 then .error .MissingWeights
    else if ¬ is_power_of_two (left_over_of weights) then
      .error (.LeftoverIsNotAPowerOf2 (left_over_of weights))
    else if max_bits_of weights > MAX_MAX_NUM_BITS then
      .error (.MaxBitsTooHigh (max_bits_of weights))
    else if rank_index_init (bits_of weights) (max_bits_of weights) 0
        ≠ 2 ^ max_bits_of weights then
      .error .RankIndexAssertFailed
    else
      .ok { decode :=
              (fill_upto (bits_of weights) (max_bits_of weights) (bits_of weights).length).decode
            decode_len := 2 ^ max_bits_of weights
            weights := weights
            max_num_bits := max_bits_of weights
            bits := bits_of weights }

/-- Method `HuffmanDecoder::init_state` (lines 229-237): read `max_num_bits` bits
into `state`.  The reader is modelled by the raw value it returns for
the `n`-th read, masked to the requested width. -/
def hd_init (t : HuffmanTable) (raw0 : Nat) : Nat :=
  raw0 % 2 ^ t.max_num_bits

/-- Method `HuffmanDecoder::next_state` (lines 239-249): returns the new state and
the number of bits consumed (`table.decode[state].num_bits`). -/
def hd_step (t : HuffmanTable) (state raw : Nat) : Nat × Nat :=
  let num_bits := (t.decode state).num_bits
  (((state <<< num_bits) &&& (t.decode_len - 1)) ||| raw % 2 ^ num_bits, num_bits)

/-- The decoder state after `init_state` followed by `n` `next_state` calls,
where `raw k` is the raw value the bit reader supplies for the `k`-th
read. -/
def hd_run (t : HuffmanTable) (raw : Nat → Nat) : Nat → Nat
  | 0 => hd_init t (raw 0)
  | n + 1 => (hd_step t (hd_run t raw n) (raw (n + 1))).1

/-- The owner state of a `HuffmanDecoder` (a table binding plus `state`). -/
structure HuffmanDecoderSt where
  table : HuffmanTable
  state : Nat

/-- The body of `HuffmanDecoder::reset` (lines 218-223), as its effect on
the decoder value it operates on: zero `state` and, when a new table is
supplied, rebind to it.  Note that in the source the receiver is taken
by value (`mut self`) and the function returns `()`, so this resulting
value is dropped rather than returned to the caller. -/
def HuffmanDecoder_reset (d : HuffmanDecoderSt) (new_table : Option HuffmanTable) :
    HuffmanDecoderSt :=
  { state := 0
    table := match new_table with | some next_table => next_table | none => d.table }

/-! ### Arithmetic facts about `highest_bit_set` and `is_power_of_two` -/

theorem countP_range_of_lt {L n : Nat} (h : L ≤ n) :
    (List.range n).countP (fun j => decide (j < L)) = L := by
  induction n with
  | zero =>
    simp only [List.range_zero, List.countP_nil]
    omega
  | succ n ih =>
    rw [List.range_succ, List.countP_append]
    rcases Nat.lt_or_ge L (n + 1) with h1 | h1
    · have hL : L ≤ n := by omega
      rw [ih hL]
      simp [Nat.not_lt.mpr hL]
    · have : L = n + 1 := by omega
      subst this
      have : (List.range n).countP (fun j => decide (j < n + 1)) = n := by
        rw [List.countP_eq_length.mpr]
        · exact List.length_range n
        · intro a ha
          simp only [List.mem_range] at ha
          simp [Nat.lt_succ_of_lt ha]
      rw [this]
      simp

theorem highest_bit_set_eq_size {x : Nat} (h : x < 2 ^ 32) :
    highest_bit_set x = Nat.size x := by
  have hsz : Nat.size x ≤ 32 := Nat.size_le.mpr h
  unfold highest_bit_set
  have hcongr : (List.range 32).countP (fun j => 2 ^ j ≤ x)
      = (List.range 32).countP (fun j => decide (j < Nat.size x)) := by
    apply List.countP_congr
    intro j _
    simpa using (Nat.lt_size).symm
  rw [hcongr, countP_range_of_lt hsz]

theorem highest_bit_set_lower {x : Nat} (hx : 0 < x) (h : x < 2 ^ 32) :
    2 ^ (highest_bit_set x - 1) ≤ x := by
  rw [highest_bit_set_eq_size h]
  have hpos : 0 < Nat.size x := Nat.size_pos.mpr hx
  exact Nat.lt_size.mp (by omega)

theorem highest_bit_set_upper {x : Nat} (h : x < 2 ^ 32) :
    x < 2 ^ highest_bit_set x := by
  rw [highest_bit_set_eq_size h]
  exact Nat.lt_size_self x

theorem highest_bit_set_pos {x : Nat} (hx : 0 < x) (h : x < 2 ^ 32) :
    0 < highest_bit_set x := by
  rw [highest_bit_set_eq_size h]
  exact Nat.size_pos.mpr hx

theorem highest_bit_set_pow {k : Nat} (h : k < 32) :
    highest_bit_set (2 ^ k) = k + 1 := by
  have : (2 : Nat) ^ k < 2 ^ 32 := Nat.pow_lt_pow_right (by omega) h
  rw [highest_bit_set_eq_size this, Nat.size_pow]

theorem is_power_of_two_iff {n : Nat} :
    is_power_of_two n = true ↔ ∃ k, k < 32 ∧ n = 2 ^ k := by
  unfold is_power_of_two
  simp [List.any_eq_true]

/-! ### List-sum helpers for the rank-index accounting -/

theorem sum_map_add_distrib {α : Type} (l : List α) (f g : α → Nat) :
    (l.map (fun x => f x + g x)).sum = (l.map f).sum + (l.map g).sum := by
  induction l with
  | nil => rfl
  | cons a l ih => simp [ih]; omega

theorem sum_map_delta {R : List Nat} (hR : R.Nodup) (a : Nat) (g : Nat → Nat) :
    (R.map (fun j => (if a = j then 1 else 0) * g j)).sum
      = if a ∈ R then g a else 0 := by
  induction R with
  | nil => simp
  | cons r R ih =>
    simp only [List.nodup_cons] at hR
    simp only [List.map_cons, List.sum_cons, ih hR.2, List.mem_cons]
    by_cases hra : a = r
    · subst hra
      simp [hR.1]
    · simp [hra, Ne.symm hra]

theorem count_mul_sum_eq_elements (l : List Nat) (R : List Nat) (hR : R.Nodup)
    (g : Nat → Nat) :
    (R.map (fun j => l.count j * g j)).sum
      = (l.map (fun b => if b ∈ R then g b else 0)).sum := by
  induction l with
  | nil => simp
  | cons a l ih =>
    have hcount : ∀ j, (a :: l).count j = l.count j + if a = j then 1 else 0 := by
      intro j
      rw [List.count_cons]
      simp [beq_iff_eq]
    have : (R.map (fun j => (a :: l).count j * g j)).sum
        = (R.map (fun j => l.count j * g j)).sum
          + (R.map (fun j => (if a = j then 1 else 0) * g j)).sum := by
      rw [← sum_map_add_distrib]
      apply congrArg List.sum
      apply List.map_congr_left
      intro j _
      rw [hcount j, Nat.add_mul]
    rw [this, sum_map_delta hR a g, ih]
    simp only [List.map_cons, List.sum_cons]
    omega

/-! ### Facts about `rank_index_init` -/

theorem rank_index_init_self (bitsl : List Nat) (mb : Nat) :
    rank_index_init bitsl mb mb = 0 := by
  unfold rank_index_init
  simp

theorem rank_index_init_pred (bitsl : List Nat) {mb b : Nat}
    (h1 : 1 ≤ b) (h2 : b ≤ mb) :
    rank_index_init bitsl mb (b - 1)
      = rank_index_init bitsl mb b + bitsl.count b * 2 ^ (mb - b) := by
  unfold rank_index_init
  have hb : b - 1 + 1 = b := by omega
  have hn : mb - (b - 1) = (mb - b) + 1 := by omega
  rw [hn, List.range'_succ, hb]
  simp only [List.map_cons, List.sum_cons]
  omega

theorem rank_index_init_antitone (bitsl : List Nat) {mb b b' : Nat}
    (h : b ≤ b') :
    rank_index_init bitsl mb b' ≤ rank_index_init bitsl mb b := by
  induction b' with
  | zero =>
    have : b = 0 := by omega
    simp [this]
  | succ n ih =>
    rcases Nat.lt_or_ge mb (n + 1) with hmb | hmb
    · -- beyond max_bits both sums are empty-tailed; compare directly
      rcases Nat.eq_or_lt_of_le h with rfl | hlt
      · exact Nat.le_refl _
      · have hb : b ≤ n := by omega
        refine Nat.le_trans ?_ (ih hb)
        unfold rank_index_init
        have : mb - (n + 1) = 0 := by omega
        simp [this]
    · rcases Nat.eq_or_lt_of_le h with rfl | hlt
      · exact Nat.le_refl _
      · have hb : b ≤ n := by omega
        refine Nat.le_trans ?_ (ih hb)
        have := rank_index_init_pred bitsl (b := n + 1) (by omega) hmb
        simp only [Nat.add_sub_cancel] at this
        omega

/-! ### Facts derived from the validation steps of `build_table_from_weights` -/

theorem weight_contrib_le_sum {ws : List Nat} {w : Nat} (h : w ∈ ws) :
    weight_contrib w ≤ weight_sum_of ws :=
  List.le_sum_of_mem (List.mem_map_of_mem weight_contrib h)

theorem weight_sum_lt_32 {ws : List Nat} (hw : ∀ w ∈ ws, w ≤ 11)
    (hlen : ws.length ≤ 257) : weight_sum_of ws < 2 ^ 32 := by
  have : weight_sum_of ws ≤ ws.length * 1024 := by
    induction ws with
    | nil => simp [weight_sum_of]
    | cons w ws ih =>
      have hw0 : w ≤ 11 := hw w (List.mem_cons_self w ws)
      have hrest : ∀ x ∈ ws, x ≤ 11 := fun x hx => hw x (List.mem_cons_of_mem w hx)
      have hc : weight_contrib w ≤ 1024 := by
        unfold weight_contrib
        split
        · calc 2 ^ (w - 1) ≤ 2 ^ 10 := Nat.pow_le_pow_right (by omega) (by omega)
            _ = 1024 := by norm_num
        · omega
      have : weight_sum_of (w :: ws) = weight_contrib w + weight_sum_of ws := by
        simp [weight_sum_of]
      rw [this]
      have := ih hrest (by simp at hlen ⊢; omega)
      simp only [List.length_cons]
      omega
  calc weight_sum_of ws ≤ ws.length * 1024 := this
    _ ≤ 257 * 1024 := Nat.mul_le_mul_right _ hlen
    _ < 2 ^ 32 := by norm_num

/-- Every explicit nonzero weight is at most `max_bits`. -/
theorem weight_le_max_bits {ws : List Nat} {w : Nat} (hmem : w ∈ ws)
    (hwpos : 0 < w) (hS32 : weight_sum_of ws < 2 ^ 32) :
    w ≤ max_bits_of ws := by
  have h1 : 2 ^ (w - 1) ≤ weight_sum_of ws := by
    have := weight_contrib_le_sum hmem
    unfold weight_contrib at this
    simpa [hwpos] using this
  have h2 : weight_sum_of ws < 2 ^ max_bits_of ws := highest_bit_set_upper hS32
  have h3 : (2 : Nat) ^ (w - 1) < 2 ^ max_bits_of ws := Nat.lt_of_le_of_lt h1 h2
  have := (Nat.pow_lt_pow_iff_right (a := 2) (by omega)).mp h3
  omega

theorem left_over_pos {ws : List Nat} (hS : 0 < weight_sum_of ws)
    (hS32 : weight_sum_of ws < 2 ^ 32) : 0 < left_over_of ws := by
  have := highest_bit_set_upper hS32
  unfold left_over_of max_bits_of
  omega

theorem left_over_le {ws : List Nat} (hS : 0 < weight_sum_of ws)
    (hS32 : weight_sum_of ws < 2 ^ 32) :
    left_over_of ws ≤ 2 ^ (max_bits_of ws - 1) := by
  have hlow : 2 ^ (max_bits_of ws - 1) ≤ weight_sum_of ws :=
    highest_bit_set_lower hS hS32
  have hpos : 0 < max_bits_of ws := highest_bit_set_pos hS hS32
  have hsplit : 2 ^ max_bits_of ws = 2 ^ (max_bits_of ws - 1) * 2 := by
    rw [← Nat.pow_succ]
    congr 1
    omega
  unfold left_over_of max_bits_of
  unfold max_bits_of at hlow hsplit hpos
  omega

/-- With `left_over` a power of two, the implicit weight reproduces it:
`2^(last_weight - 1) = left_over`. -/
theorem left_over_eq_pow {ws : List Nat}
    (hpow : is_power_of_two (left_over_of ws) = true) :
    2 ^ (last_weight_of ws - 1) = left_over_of ws := by
  obtain ⟨k, hk, hval⟩ := is_power_of_two_iff.mp hpow
  unfold last_weight_of
  rw [hval, highest_bit_set_pow hk]
  simp

theorem last_weight_pos {ws : List Nat}
    (hpow : is_power_of_two (left_over_of ws) = true) :
    0 < last_weight_of ws := by
  obtain ⟨k, hk, hval⟩ := is_power_of_two_iff.mp hpow
  unfold last_weight_of
  rw [hval, highest_bit_set_pow hk]
  omega

theorem last_weight_le_max_bits {ws : List Nat} (hS : 0 < weight_sum_of ws)
    (hS32 : weight_sum_of ws < 2 ^ 32)
    (hpow : is_power_of_two (left_over_of ws) = true) :
    last_weight_of ws ≤ max_bits_of ws := by
  have h1 : 2 ^ (last_weight_of ws - 1) = left_over_of ws := left_over_eq_pow hpow
  have h2 : left_over_of ws ≤ 2 ^ (max_bits_of ws - 1) := left_over_le hS hS32
  have h3 : (2 : Nat) ^ (last_weight_of ws - 1) ≤ 2 ^ (max_bits_of ws - 1) := by omega
  have h4 := (Nat.pow_le_pow_iff_right (by omega : 1 < 2)).mp h3
  have h5 : 0 < last_weight_of ws := last_weight_pos hpow
  have h6 : 0 < max_bits_of ws := highest_bit_set_pos hS hS32
  omega

/-- Every entry of the `bits` vector lies in `[0, max_bits]`, and the entries
produced from nonzero weights (and the implicit one) are nonzero. -/
theorem bits_of_le_max_bits {ws : List Nat} (hS : 0 < weight_sum_of ws)
    (hS32 : weight_sum_of ws < 2 ^ 32)
    (hpow : is_power_of_two (left_over_of ws) = true) :
    ∀ b ∈ bits_of ws, b ≤ max_bits_of ws := by
  intro b hb
  unfold bits_of bits_list at hb
  rw [List.mem_append] at hb
  rcases hb with hb | hb
  · obtain ⟨w, hwmem, rfl⟩ := List.mem_map.mp hb
    split
    · have := weight_le_max_bits hwmem (by omega) hS32
      omega
    · omega
  · simp only [List.mem_singleton] at hb
    subst hb
    have := last_weight_le_max_bits hS hS32 hpow
    have := last_weight_pos hpow
    omega

/-- The max-bits value is at most 32 (it counts bit positions of a `u32`). -/
theorem highest_bit_set_le_32 (x : Nat) : highest_bit_set x ≤ 32 := by
  unfold highest_bit_set
  calc (List.range 32).countP (fun j => 2 ^ j ≤ x)
      ≤ (List.range 32).length := List.countP_le_length _
    _ = 32 := List.length_range 32

/-- In the model, passing the power-of-two check already forces the weight
sum below `2^32` (otherwise the truncated `left_over` would be `0`). -/
theorem weight_sum_lt_32_of_pow {ws : List Nat}
    (hpow : is_power_of_two (left_over_of ws) = true) :
    weight_sum_of ws < 2 ^ 32 := by
  obtain ⟨k, hk, hval⟩ := is_power_of_two_iff.mp hpow
  have hlo : 0 < left_over_of ws := by
    rw [hval]
    exact Nat.pos_pow_of_pos _ (by omega)
  have hmb : max_bits_of ws ≤ 32 := highest_bit_set_le_32 _
  have h1 : 0 < 2 ^ max_bits_of ws - weight_sum_of ws := hlo
  have h2 : (2 : Nat) ^ max_bits_of ws ≤ 2 ^ 32 :=
    Nat.pow_le_pow_right (by omega) hmb
  omega

/-- The sum of the per-symbol slot-run lengths (`2^(max_bits - b)` for each
symbol of nonzero code length `b`) is exactly the table size. -/
theorem bits_sum_eq {ws : List Nat} (hS : 0 < weight_sum_of ws)
    (hS32 : weight_sum_of ws < 2 ^ 32)
    (hpow : is_power_of_two (left_over_of ws) = true) :
    ((bits_of ws).map (fun b => if b = 0 then 0 else 2 ^ (max_bits_of ws - b))).sum
      = 2 ^ max_bits_of ws := by
  have hexp : ∀ w ∈ ws, (fun b => if b = 0 then 0 else 2 ^ (max_bits_of ws - b))
      ((fun w => if w > 0 then max_bits_of ws + 1 - w else 0) w) = weight_contrib w := by
    intro w hwmem
    by_cases hw0 : 0 < w
    · have hwle : w ≤ max_bits_of ws := weight_le_max_bits hwmem hw0 hS32
      have hne : max_bits_of ws + 1 - w ≠ 0 := by omega
      have hexp2 : max_bits_of ws - (max_bits_of ws + 1 - w) = w - 1 := by omega
      simp only [weight_contrib]
      simp [hw0, hne, hexp2]
    · have : w = 0 := by omega
      subst this
      simp [weight_contrib]
  have himp : (if max_bits_of ws + 1 - last_weight_of ws = 0 then 0
      else 2 ^ (max_bits_of ws - (max_bits_of ws + 1 - last_weight_of ws)))
      = left_over_of ws := by
    have h1 := last_weight_pos hpow
    have h2 := last_weight_le_max_bits hS hS32 hpow
    have hne : max_bits_of ws + 1 - last_weight_of ws ≠ 0 := by omega
    have hexp2 : max_bits_of ws - (max_bits_of ws + 1 - last_weight_of ws)
        = last_weight_of ws - 1 := by omega
    rw [if_neg hne, hexp2]
    exact left_over_eq_pow hpow
  have hstep3 : ((bits_of ws).map (fun b =>
        if b = 0 then 0 else 2 ^ (max_bits_of ws - b))).sum
      = weight_sum_of ws + left_over_of ws := by
    unfold bits_of bits_list
    rw [List.map_append, List.sum_append, List.map_map]
    have hmaps : (ws.map ((fun b => if b = 0 then 0 else 2 ^ (max_bits_of ws - b))
        ∘ (fun w => if w > 0 then max_bits_of ws + 1 - w else 0))) = ws.map weight_contrib := by
      apply List.map_congr_left
      intro w hwmem
      exact hexp w hwmem
    rw [hmaps]
    simp only [List.map_cons, List.map_nil, List.sum_cons, List.sum_nil, Nat.add_zero]
    rw [himp]
    rfl
  rw [hstep3]
  have hup : weight_sum_of ws < 2 ^ max_bits_of ws := highest_bit_set_upper hS32
  unfold left_over_of
  omega

/-- The keystone accounting identity: after the validations, the rank-index
pass allocates the whole table, `rank_indexes[0] = 2^max_bits`. -/
theorem rank_index_init_zero {ws : List Nat} (hS : 0 < weight_sum_of ws)
    (hS32 : weight_sum_of ws < 2 ^ 32)
    (hpow : is_power_of_two (left_over_of ws) = true) :
    rank_index_init (bits_of ws) (max_bits_of ws) 0 = 2 ^ max_bits_of ws := by
  have hstep1 : rank_index_init (bits_of ws) (max_bits_of ws) 0
      = ((bits_of ws).map (fun b =>
          if b ∈ List.range' 1 (max_bits_of ws) then 2 ^ (max_bits_of ws - b) else 0)).sum := by
    unfold rank_index_init
    rw [Nat.zero_add, Nat.sub_zero]
    exact count_mul_sum_eq_elements _ _ (List.nodup_range' 1 (max_bits_of ws)) _
  have hmem : ∀ b ∈ bits_of ws, (b ∈ List.range' 1 (max_bits_of ws)) = (b ≠ 0) := by
    intro b hb
    have hble := bits_of_le_max_bits hS hS32 hpow b hb
    simp only [List.mem_range'_1, eq_iff_iff]
    constructor
    · intro h
      omega
    · intro h
      omega
  have hstep2 : ((bits_of ws).map (fun b =>
        if b ∈ List.range' 1 (max_bits_of ws) then 2 ^ (max_bits_of ws - b) else 0)).sum
      = ((bits_of ws).map (fun b => if b = 0 then 0 else 2 ^ (max_bits_of ws - b))).sum := by
    apply congrArg List.sum
    apply List.map_congr_left
    intro b hb
    simp only [hmem b hb]
    by_cases h : b = 0 <;> simp [h]
  rw [hstep1, hstep2, bits_sum_eq hS hS32 hpow]

/-! ### The slot runs claimed by the fill loop -/

/-- Run length for symbol `s`: `2^(max_bits - bits[s])` slots
(meaningful when `bits[s] ≠ 0`). -/
def run_L (bitsl : List Nat) (mb s : Nat) : Nat :=
  2 ^ (mb - bitsl.getD s 0)

/-- First slot of symbol `s`'s run: the length-`bits[s]` cursor has been
advanced once for every earlier symbol with the same code length. -/
def run_base (bitsl : List Nat) (mb s : Nat) : Nat :=
  rank_index_init bitsl mb (bitsl.getD s 0)
    + (bitsl.take s).count (bitsl.getD s 0) * run_L bitsl mb s

/-- Slot `i` belongs to symbol `s`'s run. -/
def in_run (bitsl : List Nat) (mb s i : Nat) : Prop :=
  run_base bitsl mb s ≤ i ∧ i < run_base bitsl mb s + run_L bitsl mb s

theorem getD_mem_of_lt {l : List Nat} {s : Nat} (h : s < l.length) :
    l.getD s 0 ∈ l := by
  rw [List.getD_eq_getElem?_getD, List.getElem?_eq_getElem h]
  exact List.getElem_mem h

theorem count_take_succ {l : List Nat} {n : Nat} (h : n < l.length) (x : Nat) :
    (l.take (n + 1)).count x
      = (l.take n).count x + (if l.getD n 0 = x then 1 else 0) := by
  rw [List.take_succ, List.getElem?_eq_getElem h, List.count_append]
  rw [List.getD_eq_getElem?_getD, List.getElem?_eq_getElem h]
  simp [List.count_singleton, beq_iff_eq]

theorem count_take_mono {l : List Nat} {m n : Nat} (h : m ≤ n) (x : Nat) :
    (l.take m).count x ≤ (l.take n).count x :=
  ((List.take_prefix_take_left l h).sublist).count_le x

theorem count_take_lt_count {l : List Nat} {s : Nat} (hs : s < l.length) :
    (l.take s).count (l.getD s 0) < l.count (l.getD s 0) := by
  have hlt := count_take_succ hs (l.getD s 0)
  rw [if_pos rfl] at hlt
  have hle : (l.take (s + 1)).count (l.getD s 0) ≤ l.count (l.getD s 0) := by
    have := count_take_mono (l := l) (Nat.le_refl l.length) (l.getD s 0)
    calc (l.take (s + 1)).count (l.getD s 0)
        ≤ (l.take l.length).count (l.getD s 0) := count_take_mono hs (l.getD s 0)
      _ = l.count (l.getD s 0) := by rw [List.take_length]
  omega

theorem count_take_strict_mono {l : List Nat} {s t : Nat} (hst : s < t)
    (ht : t ≤ l.length) (x : Nat) (hx : l.getD s 0 = x) :
    (l.take s).count x < (l.take t).count x := by
  have hs : s < l.length := by omega
  have h1 := count_take_succ hs x
  rw [if_pos hx] at h1
  have h2 : (l.take (s + 1)).count x ≤ (l.take t).count x :=
    count_take_mono (by omega) x
  omega

theorem exists_occurrence {l : List Nat} {x : Nat} :
    ∀ {c : Nat}, c < l.count x →
      ∃ s, s < l.length ∧ l.getD s 0 = x ∧ (l.take s).count x = c := by
  induction l with
  | nil => intro c h; simp at h
  | cons a l ih =>
    intro c h
    by_cases hax : a = x
    · subst hax
      rw [List.count_cons_self] at h
      cases c with
      | zero => exact ⟨0, by simp, by simp, by simp⟩
      | succ c =>
        obtain ⟨s, hs, hgd, hct⟩ := ih (show c < List.count a l by omega)
        refine ⟨s + 1, by simpa using hs, by simpa using hgd, ?_⟩
        rw [List.take_succ_cons, List.count_cons_self, hct]
    · have hxa : x ≠ a := fun hh => hax hh.symm
      rw [List.count_cons_of_ne hxa] at h
      obtain ⟨s, hs, hgd, hct⟩ := ih h
      refine ⟨s + 1, by simpa using hs, by simpa using hgd, ?_⟩
      rw [List.take_succ_cons, List.count_cons_of_ne hxa, hct]

/-- Symbol `s`'s run sits inside the region `[R(b), R(b-1))` reserved for its
code length `b`. -/
theorem run_in_region {l : List Nat} {mb s : Nat} (hs : s < l.length)
    (hb0 : l.getD s 0 ≠ 0) (hble : l.getD s 0 ≤ mb) :
    rank_index_init l mb (l.getD s 0) ≤ run_base l mb s ∧
    run_base l mb s + run_L l mb s ≤ rank_index_init l mb (l.getD s 0 - 1) := by
  refine ⟨Nat.le_add_right _ _, ?_⟩
  have hrec := rank_index_init_pred l (b := l.getD s 0) (by omega) hble
  have hcnt := count_take_lt_count hs
  unfold run_base run_L
  have hmul : ((l.take s).count (l.getD s 0) + 1) * 2 ^ (mb - l.getD s 0)
      ≤ l.count (l.getD s 0) * 2 ^ (mb - l.getD s 0) :=
    Nat.mul_le_mul_right _ (by omega)
  rw [Nat.add_mul, Nat.one_mul] at hmul
  omega

/-- Runs of distinct symbols are disjoint (same code length). -/
theorem runs_disjoint_same_bit {l : List Nat} {mb s t i : Nat}
    (hst : s < t) (ht : t ≤ l.length)
    (hbb : l.getD t 0 = l.getD s 0)
    (hi : in_run l mb s i) (hi' : in_run l mb t i) : False := by
  have hmono := count_take_strict_mono hst ht (l.getD s 0) rfl
  obtain ⟨h1, h2⟩ := hi
  obtain ⟨h3, h4⟩ := hi'
  unfold run_base run_L at h1 h2 h3 h4
  rw [hbb] at h3 h4
  have hmul : ((l.take s).count (l.getD s 0) + 1) * 2 ^ (mb - l.getD s 0)
      ≤ (l.take t).count (l.getD s 0) * 2 ^ (mb - l.getD s 0) :=
    Nat.mul_le_mul_right _ (by omega)
  rw [Nat.add_mul, Nat.one_mul] at hmul
  omega

/-- Runs of symbols with different code lengths are disjoint. -/
theorem runs_disjoint_bit_lt {l : List Nat} {mb s t i : Nat}
    (hball : ∀ b ∈ l, b ≤ mb)
    (hs : s < l.length) (ht : t < l.length)
    (h0s : l.getD s 0 ≠ 0) (h0t : l.getD t 0 ≠ 0)
    (hbb : l.getD t 0 < l.getD s 0)
    (hi : in_run l mb s i) (hi' : in_run l mb t i) : False := by
  have hregs := run_in_region hs h0s (hball _ (getD_mem_of_lt hs))
  have hregt := run_in_region ht h0t (hball _ (getD_mem_of_lt ht))
  have hanti : rank_index_init l mb (l.getD s 0 - 1)
      ≤ rank_index_init l mb (l.getD t 0) :=
    rank_index_init_antitone l (by omega)
  obtain ⟨h1, h2⟩ := hi
  obtain ⟨h3, h4⟩ := hi'
  omega

/-- Slot-run uniqueness: a slot belongs to the run of at most one symbol. -/
theorem runs_disjoint {l : List Nat} {mb s t i : Nat}
    (hball : ∀ b ∈ l, b ≤ mb)
    (hs : s < l.length) (ht : t < l.length)
    (h0s : l.getD s 0 ≠ 0) (h0t : l.getD t 0 ≠ 0)
    (hi : in_run l mb s i) (hi' : in_run l mb t i) : s = t := by
  by_contra hne
  rcases Nat.lt_trichotomy (l.getD s 0) (l.getD t 0) with hlt | heq | hgt
  · exact runs_disjoint_bit_lt hball ht hs h0t h0s hlt hi' hi
  · rcases Nat.lt_or_ge s t with hst | hst
    · exact runs_disjoint_same_bit hst (Nat.le_of_lt ht) heq.symm hi hi'
    · have hts : t < s := by omega
      exact runs_disjoint_same_bit hts (Nat.le_of_lt hs) heq hi' hi
  · exact runs_disjoint_bit_lt hball hs ht h0s h0t hgt hi hi'

/-- Every slot below `rank_indexes[0]` lies in some region `[R(b), R(b-1))`. -/
theorem coverage_find_bit {l : List Nat} {mb i : Nat}
    (hi : i < rank_index_init l mb 0) :
    ∃ b, 1 ≤ b ∧ b ≤ mb ∧ rank_index_init l mb b ≤ i ∧
      i < rank_index_init l mb (b - 1) := by
  suffices h : ∀ d j, j + d = mb → i < rank_index_init l mb j →
      ∃ b, j < b ∧ b ≤ mb ∧ rank_index_init l mb b ≤ i ∧
        i < rank_index_init l mb (b - 1) by
    obtain ⟨b, hb1, hb2, hb3, hb4⟩ := h mb 0 (by omega) hi
    exact ⟨b, by omega, hb2, hb3, hb4⟩
  intro d
  induction d with
  | zero =>
    intro j hj hlt
    subst hj
    rw [Nat.add_zero] at hlt ⊢
    rw [rank_index_init_self] at hlt
    omega
  | succ d ihd =>
    intro j hj hlt
    rcases Nat.lt_or_ge i (rank_index_init l mb (j + 1)) with hlt2 | hge
    · obtain ⟨b, hb1, hb2, hb3, hb4⟩ := ihd (j + 1) (by omega) hlt2
      exact ⟨b, by omega, hb2, hb3, hb4⟩
    · exact ⟨j + 1, by omega, by omega, hge, by simpa using hlt⟩

/-- Slot-run coverage: every slot below `rank_indexes[0]` lies in the run of
some symbol with nonzero code length. -/
theorem exists_run {l : List Nat} {mb i : Nat}
    (hi : i < rank_index_init l mb 0) :
    ∃ s, s < l.length ∧ l.getD s 0 ≠ 0 ∧ in_run l mb s i := by
  obtain ⟨b, hb1, hb2, hRb, hRb1⟩ := coverage_find_bit hi
  have hrec := rank_index_init_pred l hb1 hb2
  have hLpos : 0 < 2 ^ (mb - b) := Nat.pos_pow_of_pos _ (by omega)
  have hcdiv : (i - rank_index_init l mb b) / 2 ^ (mb - b) < l.count b := by
    rw [Nat.div_lt_iff_lt_mul hLpos]
    omega
  obtain ⟨s, hs, hgd, hct⟩ := exists_occurrence hcdiv
  refine ⟨s, hs, by omega, ?_⟩
  unfold in_run run_base run_L
  rw [hgd, hct]
  have hdm := Nat.div_add_mod (i - rank_index_init l mb b) (2 ^ (mb - b))
  have hmod := Nat.mod_lt (i - rank_index_init l mb b) hLpos
  set c := (i - rank_index_init l mb b) / 2 ^ (mb - b) with hc
  set r := (i - rank_index_init l mb b) % 2 ^ (mb - b) with hr
  have hcomm : c * 2 ^ (mb - b) = 2 ^ (mb - b) * c := Nat.mul_comm _ _
  omega

/-! ### Correctness of the table-fill loop -/

theorem fill_upto_spec {l : List Nat} {mb : Nat} (hball : ∀ b ∈ l, b ≤ mb) :
    ∀ n, n ≤ l.length →
      (∀ b, b ≠ 0 → (fill_upto l mb n).rank b
          = rank_index_init l mb b + ((l.take n).count b) * 2 ^ (mb - b)) ∧
      (∀ s, s < n → l.getD s 0 ≠ 0 → ∀ i, in_run l mb s i →
          (fill_upto l mb n).decode i = ⟨s % 256, l.getD s 0⟩) ∧
      (∀ i, (∀ s, s < n → l.getD s 0 ≠ 0 → ¬ in_run l mb s i) →
          (fill_upto l mb n).decode i = ⟨0, 0⟩) := by
  intro n
  induction n with
  | zero =>
    intro _
    refine ⟨?_, ?_, ?_⟩
    · intro b _
      simp [fill_upto]
    · intro s hs
      omega
    · intro i _
      simp [fill_upto]
  | succ n ihn =>
    intro hn1
    have hn : n < l.length := by omega
    obtain ⟨ih1, ih2, ih3⟩ := ihn (by omega)
    by_cases he : l.getD n 0 = 0
    · -- the symbol is unused: the step is the identity
      have hstep : fill_upto l mb (n + 1) = fill_upto l mb n := by
        have heq : fill_upto l mb (n + 1)
            = fill_step mb (fill_upto l mb n) n (l.getD n 0) := rfl
        rw [heq]
        unfold fill_step
        rw [if_neg (fun hh => hh he)]
      refine ⟨?_, ?_, ?_⟩
      · intro b hb
        rw [hstep, ih1 b hb, count_take_succ hn b]
        have hif : (if l.getD n 0 = b then 1 else 0) = 0 := by
          rw [if_neg]
          omega
        rw [hif]
        simp
      · intro s hs h0 i hi
        rcases Nat.lt_or_ge s n with hsn | hsn
        · rw [hstep]
          exact ih2 s hsn h0 i hi
        · have heq : s = n := by omega
          subst heq
          exact absurd he h0
      · intro i hni
        rw [hstep]
        exact ih3 i (fun s hs h0 => hni s (by omega) h0)
    · -- the symbol claims its run
      have hrank := ih1 (l.getD n 0) he
      have hbase : (fill_upto l mb n).rank (l.getD n 0) = run_base l mb n := by
        rw [hrank]
        rfl
      have hdec : ∀ i, (fill_upto l mb (n + 1)).decode i
          = if run_base l mb n ≤ i ∧ i < run_base l mb n + run_L l mb n
            then ⟨n % 256, l.getD n 0⟩
            else (fill_upto l mb n).decode i := by
        intro i
        simp only [fill_upto, fill_step, if_pos he]
        rw [hbase]
        rfl
      have hrk : ∀ b, (fill_upto l mb (n + 1)).rank b
          = if b = l.getD n 0
            then (fill_upto l mb n).rank (l.getD n 0) + 2 ^ (mb - l.getD n 0)
            else (fill_upto l mb n).rank b := by
        intro b
        simp only [fill_upto, fill_step, if_pos he]
      refine ⟨?_, ?_, ?_⟩
      · intro b hb
        rw [hrk b, count_take_succ hn b]
        by_cases hbe : b = l.getD n 0
        · rw [if_pos hbe, if_pos hbe.symm, hrank, hbe]
          ring
        · rw [if_neg hbe, if_neg (fun hh => hbe hh.symm), ih1 b hb]
          simp
      · intro s hs h0 i hi
        rcases Nat.lt_or_ge s n with hsn | hsn
        · rw [hdec i]
          have hnot : ¬ (run_base l mb n ≤ i ∧ i < run_base l mb n + run_L l mb n) := by
            intro hcon
            have hin : in_run l mb n i := hcon
            have := runs_disjoint hball (by omega) hn h0 he hi hin
            omega
          rw [if_neg hnot]
          exact ih2 s hsn h0 i hi
        · have heq : s = n := by omega
          subst heq
          have hi2 : run_base l mb s ≤ i ∧ i < run_base l mb s + run_L l mb s := hi
          rw [hdec i, if_pos hi2]
      · intro i hni
        rw [hdec i]
        have hnot : ¬ (run_base l mb n ≤ i ∧ i < run_base l mb n + run_L l mb n) :=
          hni n (by omega) he
        rw [if_neg hnot]
        exact ih3 i (fun s hs h0 => hni s (by omega) h0)

/-! ### Inversion of a successful `build_table_from_weights` -/

theorem build_ok_elim {ws : List Nat} {t : HuffmanTable}
    (h : build_table_from_weights ws = .ok t) :
    (∀ w ∈ ws, w ≤ 11) ∧
    0 < weight_sum_of ws ∧
    is_power_of_two (left_over_of ws) = true ∧
    max_bits_of ws ≤ 11 ∧
    t = { decode := (fill_upto (bits_of ws) (max_bits_of ws) (bits_of ws).length).decode
          decode_len := 2 ^ max_bits_of ws
          weights := ws
          max_num_bits := max_bits_of ws
          bits := bits_of ws } := by
  unfold build_table_from_weights at h
  split at h
  next w heq => simp at h
  next heq =>
    have hw : ∀ w ∈ ws, w ≤ 11 := by
      intro w hwm
      have := List.find?_eq_none.mp heq w hwm
      simpa [MAX_MAX_NUM_BITS] using this
    split at h
    next hws => simp at h
    next hws =>
      split at h
      next hpow => simp at h
      next hpow =>
        split at h
        next hmb => simp at h
        next hmb =>
          split at h
          next hrk => simp at h
          next hrk =>
            have ht := (Except.ok.inj h).symm
            refine ⟨hw, ?_, not_not.mp hpow, Nat.le_of_not_lt hmb, ht⟩
            have : weight_sum_of ws ≠ 0 := hws
            omega

/-- Every decode-table entry written by the fill loop carries a code length
of at most `max_bits` (unwritten slots keep the dummy length `0`). -/
theorem fill_decode_num_bits_le {l : List Nat} {mb : Nat}
    (hball : ∀ b ∈ l, b ≤ mb) (i : Nat) :
    ((fill_upto l mb l.length).decode i).num_bits ≤ mb := by
  obtain ⟨h1, h2, h3⟩ := fill_upto_spec hball l.length (Nat.le_refl _)
  by_cases hex : ∃ s, s < l.length ∧ l.getD s 0 ≠ 0 ∧ in_run l mb s i
  · obtain ⟨s, hs, h0, hin⟩ := hex
    rw [h2 s hs h0 i hin]
    exact hball _ (getD_mem_of_lt hs)
  · push_neg at hex
    rw [h3 i hex]
    exact Nat.zero_le mb

/-- Function `build_table_from_weights` can never reach the `assert!` with an
unbalanced rank index: the panic outcome is unreachable. -/
theorem build_no_assert (ws : List Nat) :
    build_table_from_weights ws ≠ .error .RankIndexAssertFailed := by
  intro h
  unfold build_table_from_weights at h
  split at h
  next w heq => simp at h
  next heq =>
    split at h
    next hws => simp at h
    next hws =>
      split at h
      next hpow => simp at h
      next hpow =>
        split at h
        next hmb => simp at h
        next hmb =>
          split at h
          next hrk =>
            have hpow2 := not_not.mp hpow
            have hS32 := weight_sum_lt_32_of_pow hpow2
            exact hrk (rank_index_init_zero (Nat.pos_of_ne_zero hws) hS32 hpow2)
          next hrk => simp at h

end Huff0

namespace Huff0

/-- C6: for every weight sequence passing the preceding validation steps
(every weight at most 11, positive weight sum, power-of-two leftover,
`max_bits` at most 11), the rank-index starting-offset pass puts exactly
the table size `2^max_bits` in `rank_indexes[0]`, so the internal
`assert!` in `build_table_from_weights` can never fail. -/
theorem rank_index_offsets_exact {ws : List Nat}
    (hw : ∀ w ∈ ws, w ≤ 11) (hS : 0 < weight_sum_of ws)
    (hpow : is_power_of_two (left_over_of ws) = true)
    (hmb : max_bits_of ws ≤ 11) :
    rank_index_init (bits_of ws) (max_bits_of ws) 0 = 2 ^ max_bits_of ws ∧
    build_table_from_weights ws ≠ .error .RankIndexAssertFailed :=
  ⟨rank_index_init_zero hS (weight_sum_lt_32_of_pow hpow) hpow,
    build_no_assert ws⟩

/-- Witness for C6 at the weight sequence `[1]`. -/
theorem rank_index_offsets_exact_witness :
    rank_index_init (bits_of [1]) (max_bits_of [1]) 0 = 2 ^ max_bits_of [1] ∧
    build_table_from_weights [1] ≠ .error .RankIndexAssertFailed :=
  rank_index_offsets_exact (by decide) (by decide) (by decide) (by decide)

/-- C10: for every weight sequence (of in-repo-reachable length) with
positive weight sum, the computed leftover satisfies
`1 ≤ left_over ≤ 2^(max_bits - 1)`; in particular it is never `0`, so
the power-of-two check never sees zero and `highest_bit_set(left_over)`
never violates its `x > 0` assertion. -/
theorem left_over_bounds {ws : List Nat} (hw : ∀ w ∈ ws, w ≤ 11)
    (hlen : ws.length ≤ 257) (hS : 0 < weight_sum_of ws) :
    1 ≤ left_over_of ws ∧ left_over_of ws ≤ 2 ^ (max_bits_of ws - 1) := by
  have hS32 := weight_sum_lt_32 hw hlen
  exact ⟨left_over_pos hS hS32, left_over_le hS hS32⟩

/-- Witness for C10 at the weight sequence `[1]`. -/
theorem left_over_bounds_witness :
    1 ≤ left_over_of [1] ∧ left_over_of [1] ≤ 2 ^ (max_bits_of [1] - 1) :=
  left_over_bounds (by decide) (by decide) (by decide)

/-- C7: `build_table_from_weights` rejects the first weight above 11 with
`WeightBiggerThanMaxNumBits`; when the weights pass the earlier checks
but the derived `max_bits` exceeds 11 it rejects with `MaxBitsTooHigh`;
and any successfully built table has `max_num_bits ≤ 11` and a decode
table of exactly `2^max_num_bits ≤ 2^11` entries. -/
theorem build_rejects_bounds (ws : List Nat) :
    (∀ w, ws.find? (fun x => MAX_MAX_NUM_BITS < x) = some w →
      build_table_from_weights ws = .error (.WeightBiggerThanMaxNumBits w) ∧ 11 < w) ∧
    ((∀ w ∈ ws, w ≤ 11) → weight_sum_of ws ≠ 0 →
      is_power_of_two (left_over_of ws) = true → 11 < max_bits_of ws →
      build_table_from_weights ws = .error (.MaxBitsTooHigh (max_bits_of ws))) ∧
    (∀ t, build_table_from_weights ws = .ok t →
      t.max_num_bits ≤ 11 ∧ t.decode_len = 2 ^ t.max_num_bits ∧
      t.decode_len ≤ 2 ^ 11) := by
  refine ⟨?_, ?_, ?_⟩
  · intro w hfind
    constructor
    · unfold build_table_from_weights
      rw [hfind]
    · have := List.find?_some hfind
      simpa [MAX_MAX_NUM_BITS] using this
  · intro hw hS hpow hmb
    have hfind : ws.find? (fun x => MAX_MAX_NUM_BITS < x) = none := by
      rw [List.find?_eq_none]
      intro w hwm
      simpa [MAX_MAX_NUM_BITS] using Nat.not_lt.mpr (hw w hwm)
    unfold build_table_from_weights
    simp only [hfind]
    rw [if_neg hS, if_neg (fun hh => hh hpow),
      if_pos (show max_bits_of ws > MAX_MAX_NUM_BITS from hmb)]
  · intro t h
    obtain ⟨hw, hSpos, hpow, hmb11, ht⟩ := build_ok_elim h
    subst ht
    refine ⟨hmb11, rfl, ?_⟩
    exact Nat.pow_le_pow_right (by omega) hmb11

/-- Witness for C7: the weight  12 is rejected; four weights of 11 derive
`max_bits = 13` and are rejected; the table built from `[1, 1]` is
within bounds. -/
theorem build_rejects_bounds_witness :
    (build_table_from_weights [12]
      = .error (.WeightBiggerThanMaxNumBits 12) ∧ 11 < 12) ∧
    build_table_from_weights [11, 11, 11, 11]
      = .error (.MaxBitsTooHigh (max_bits_of [11, 11, 11, 11])) := by
  refine ⟨(build_rejects_bounds [12]).1 12 (by decide), ?_⟩
  exact (build_rejects_bounds [11, 11, 11, 11]).2.1
    (by decide) (by decide) (by decide) (by decide)

/-- C1: for every weight sequence on which `build_table_from_weights`
succeeds, the decode table has length exactly `2^max_num_bits`; the
slot-run lengths `2^(max_num_bits - b)` of the symbols with code length
`b > 0` sum to the full table length; each such symbol owns a contiguous
run of exactly `2^(max_num_bits - b)` slots inside the table, all of
which decode to it; and every slot of the table lies in exactly one
symbol's run (no gaps, no overlaps). -/
theorem build_table_partition {ws : List Nat} {t : HuffmanTable}
    (h : build_table_from_weights ws = .ok t) :
    t.decode_len = 2 ^ t.max_num_bits ∧
    ((t.bits.map (fun b => if b = 0 then 0 else 2 ^ (t.max_num_bits - b))).sum
        = t.decode_len) ∧
    (∀ s, s < t.bits.length → t.bits.getD s 0 ≠ 0 →
      run_L t.bits t.max_num_bits s = 2 ^ (t.max_num_bits - t.bits.getD s 0) ∧
      run_base t.bits t.max_num_bits s + run_L t.bits t.max_num_bits s
        ≤ t.decode_len ∧
      (∀ i, in_run t.bits t.max_num_bits s i →
        t.decode i = ⟨s % 256, t.bits.getD s 0⟩)) ∧
    (∀ i, i < t.decode_len →
      ∃! s, s < t.bits.length ∧ t.bits.getD s 0 ≠ 0 ∧
        in_run t.bits t.max_num_bits s i) := by
  obtain ⟨hw, hSpos, hpow, hmb11, ht⟩ := build_ok_elim h
  have hS32 := weight_sum_lt_32_of_pow hpow
  have hball := bits_of_le_max_bits hSpos hS32 hpow
  have hR0 := rank_index_init_zero hSpos hS32 hpow
  obtain ⟨h1, h2, h3⟩ := fill_upto_spec hball (bits_of ws).length (Nat.le_refl _)
  subst ht
  dsimp only
  refine ⟨rfl, ?_, ?_, ?_⟩
  · exact bits_sum_eq hSpos hS32 hpow
  · intro s hs h0
    refine ⟨rfl, ?_, ?_⟩
    · obtain ⟨hr1, hr2⟩ :=
        run_in_region hs h0 (hball _ (getD_mem_of_lt hs))
      have hanti : rank_index_init (bits_of ws) (max_bits_of ws)
            ((bits_of ws).getD s 0 - 1)
          ≤ rank_index_init (bits_of ws) (max_bits_of ws) 0 :=
        rank_index_init_antitone _ (Nat.zero_le _)
      show run_base (bits_of ws) (max_bits_of ws) s
          + run_L (bits_of ws) (max_bits_of ws) s ≤ 2 ^ max_bits_of ws
      omega
    · intro i hi
      exact h2 s hs h0 i hi
  · intro i hi
    have hi0 : i < rank_index_init (bits_of ws) (max_bits_of ws) 0 := by
      rw [hR0]
      exact hi
    obtain ⟨s, hs, h0, hin⟩ := exists_run hi0
    refine ⟨s, ⟨hs, h0, hin⟩, ?_⟩
    rintro s2 ⟨hs2, h02, hin2⟩
    exact runs_disjoint hball hs2 hs h02 h0 hin2 hin

/-- The table built from the weight sequence `[1, 1]`. -/
def tbl11 : HuffmanTable :=
  match build_table_from_weights [1, 1] with
  | .ok t => t
  | .error _ => { decode := fun _ => ⟨0, 0⟩, decode_len := 0, weights := []
                  max_num_bits := 0, bits := [] }

/-- Witness for C1: the table built from `[1, 1]` satisfies the partition
property; its slot 2 (inside the implicit symbol's run) decodes to
symbol 2 with 1 bit. -/
theorem build_table_partition_witness :
    tbl11.decode_len = 2 ^ tbl11.max_num_bits ∧
    tbl11.decode 2 = ⟨2, 1⟩ := by
  have hp := build_table_partition
    (show build_table_from_weights [1, 1] = .ok tbl11 from rfl)
  refine ⟨hp.1, ?_⟩
  have h3 := (hp.2.2.1) 2 (by decide) (by decide)
  have hin : in_run tbl11.bits tbl11.max_num_bits 2 2 := ⟨by decide, by decide⟩
  have := h3.2.2 2 hin
  simpa using this

/-- C5: for every successfully built table, the decoder state after
`init_state` and any number of `next_state` calls is always a masked
(in-range) index into the decode table, and the `num_bits` consumed by
each `next_state` call is the `num_bits` field of the decode-table entry
at the state current when the call was made. -/
theorem decoder_state_in_range {ws : List Nat} {t : HuffmanTable}
    (h : build_table_from_weights ws = .ok t) (raw : Nat → Nat) (n : Nat) :
    hd_run t raw n &&& (t.decode_len - 1) = hd_run t raw n ∧
    (hd_step t (hd_run t raw n) (raw (n + 1))).2
      = (t.decode (hd_run t raw n)).num_bits := by
  obtain ⟨hw, hSpos, hpow, hmb11, ht⟩ := build_ok_elim h
  have hS32 := weight_sum_lt_32_of_pow hpow
  have hball := bits_of_le_max_bits hSpos hS32 hpow
  have hdl : t.decode_len = 2 ^ max_bits_of ws := by rw [ht]
  have hmnb : t.max_num_bits = max_bits_of ws := by rw [ht]
  have hnb : ∀ i, (t.decode i).num_bits ≤ max_bits_of ws := by
    intro i
    rw [ht]
    exact fill_decode_num_bits_le hball i
  have hstate : ∀ m, hd_run t raw m < 2 ^ max_bits_of ws := by
    intro m
    induction m with
    | zero =>
      show raw 0 % 2 ^ t.max_num_bits < 2 ^ max_bits_of ws
      rw [hmnb]
      exact Nat.mod_lt _ (Nat.pos_pow_of_pos _ (by omega))
    | succ m ihm =>
      show ((hd_run t raw m <<< (t.decode (hd_run t raw m)).num_bits)
            &&& (t.decode_len - 1))
          ||| raw (m + 1) % 2 ^ (t.decode (hd_run t raw m)).num_bits
          < 2 ^ max_bits_of ws
      apply Nat.or_lt_two_pow
      · rw [hdl, Nat.and_pow_two_sub_one_eq_mod]
        exact Nat.mod_lt _ (Nat.pos_pow_of_pos _ (by omega))
      · calc raw (m + 1) % 2 ^ (t.decode (hd_run t raw m)).num_bits
            < 2 ^ (t.decode (hd_run t raw m)).num_bits :=
              Nat.mod_lt _ (Nat.pos_pow_of_pos _ (by omega))
          _ ≤ 2 ^ max_bits_of ws :=
              Nat.pow_le_pow_right (by omega) (hnb _)
  constructor
  · rw [hdl]
    exact Nat.and_pow_two_sub_one_of_lt_two_pow (hstate n)
  · rfl

/-- Witness for C5 at the `[1, 1]` table with an all-zero bit stream. -/
theorem decoder_state_in_range_witness :
    hd_run tbl11 (fun _ => 0) 0 &&& (tbl11.decode_len - 1)
      = hd_run tbl11 (fun _ => 0) 0 :=
  (decoder_state_in_range
    (show build_table_from_weights [1, 1] = .ok tbl11 from rfl)
    (fun _ => 0) 0).1

/-! ### Direct-encoding weight decoding (header ≥ 128) and byte accounting -/

/-- C3: for a source whose header byte is at least 128, `read_weights`
decodes `numWeights = header - 127` weights, two 4-bit weights per
payload byte with the high nibble first; it fails with
`NotEnoughBytesInSource` when fewer than `ceil(numWeights/2)` payload
bytes are present, and on success consumes exactly
`1 + ceil(numWeights/2)` bytes.  In particular header `129` with payload
byte `0x21` yields the weights `[2, 1]`. -/
theorem read_weights_direct_spec (o : FSEOracle) (header : Nat) (rest : List Nat)
    (hh : 128 ≤ header) (hb : ∀ b ∈ rest, b < 256) :
    (rest.length < (header - 126) / 2 →
      read_weights o (header :: rest)
        = .error (.NotEnoughBytesInSource rest.length ((header - 126) / 2))) ∧
    ((header - 126) / 2 ≤ rest.length →
      ∃ ws, read_weights o (header :: rest) = .ok (ws, 1 + (header - 126) / 2) ∧
        ws.length = header - 127 ∧
        (∀ idx, idx < header - 127 →
          ws.getD idx 0 = if idx % 2 = 0 then rest.getD (idx / 2) 0 / 16
                          else rest.getD (idx / 2) 0 % 16) ∧
        (∀ w ∈ ws, w < 16)) ∧
    read_weights o [129, 33] = .ok ([2, 1], 2) := by
  have hbn : (if (header - 127) % 2 == 0
        then (header - 127) / 2 else (header - 127) / 2 + 1)
      = (header - 126) / 2 := by
    by_cases h2 : (header - 127) % 2 = 0
    · simp only [h2]
      simp
      omega
    · have h2f : ((header - 127) % 2 == 0) = false := by
        simp [h2]
      rw [h2f]
      simp
      omega
  refine ⟨?_, ?_, rfl⟩
  · intro hlen
    simp only [read_weights]
    rw [if_neg (by omega)]
    rw [hbn, if_pos hlen]
  · intro hlen
    simp only [read_weights]
    rw [if_neg (by omega)]
    rw [hbn, if_neg (by omega)]
    have hbb : bytes_of_bits (8 + 4 * (header - 127)) = 1 + (header - 126) / 2 := by
      unfold bytes_of_bits
      by_cases hm : (8 + 4 * (header - 127)) % 8 = 0
      · rw [if_pos (by simpa using hm)]
        omega
      · rw [if_neg (by simpa using hm)]
        omega
    rw [hbb]
    refine ⟨_, rfl, ?_, ?_, ?_⟩
    · simp
    · intro idx hidx
      rw [List.getD_eq_getElem?_getD, List.getElem?_map,
        List.getElem?_range hidx]
      simp only [Option.map_some', Option.getD_some]
      by_cases h2 : idx % 2 = 0
      · have h2t : (idx % 2 == 0) = true := by simp [h2]
        rw [h2t, if_pos h2]
        simp [Nat.shiftRight_eq_div_pow]
      · have h2f : (idx % 2 == 0) = false := by simp [h2]
        rw [h2f, if_neg h2]
        simp
    · intro w hw
      obtain ⟨idx, hidx, rfl⟩ := List.mem_map.mp hw
      have hbyte : rest.getD (idx / 2) 0 < 256 := by
        rcases Nat.lt_or_ge (idx / 2) rest.length with hr | hr
        · exact hb _ (getD_mem_of_lt hr)
        · rw [List.getD_eq_getElem?_getD, List.getElem?_eq_none hr]
          simp
      by_cases h2 : idx % 2 = 0
      · have h2t : (idx % 2 == 0) = true := by simp [h2]
        rw [h2t, if_pos rfl]
        rw [Nat.shiftRight_eq_div_pow]
        omega
      · have h2f : (idx % 2 == 0) = false := by simp [h2]
        rw [h2f, if_neg (by simp)]
        exact Nat.mod_lt _ (by omega)

/-- Witness for C3 at header `129`, payload `0x21`: two weights and two
bytes consumed. -/
theorem read_weights_direct_spec_witness :
    read_weights ⟨.ok 0, fun _ => 1, fun _ => 1, fun _ => 1, fun _ => -1⟩
      [129, 33] = .ok ([2, 1], 2) :=
  (read_weights_direct_spec ⟨.ok 0, fun _ => 1, fun _ => 1, fun _ => 1, fun _ => -1⟩
    129 [33] (by decide) (by decide)).2.2

/-- C4: for a source whose header byte is at most 127, whenever
`read_weights` succeeds it reports exactly `1 + header` bytes consumed
(one header byte plus the declared sub-section length). -/
theorem read_weights_fse_bytes {o : FSEOracle} {header : Nat}
    {rest ws : List Nat} {n : Nat} (hh : header ≤ 127)
    (h : read_weights o (header :: rest) = .ok (ws, n)) : n = 1 + header := by
  simp only [read_weights] at h
  rw [if_pos hh] at h
  split at h
  next hlen => simp at h
  next hlen =>
    split at h
    next e heq => simp at h
    next used heq =>
      split at h
      next hused => simp at h
      next hused =>
        split at h
        next hcl => simp at h
        next hcl =>
          split at h
          next e heq2 => simp at h
          next k heq2 =>
            split at h
            next e heq3 => simp at h
            next ws2 heq3 =>
              rw [Except.ok.injEq, Prod.mk.injEq] at h
              have hn : n = bytes_of_bits (8 + (used + (header - used)) * 8) :=
                h.2.symm
              have hdr : used + (header - used) = header := by omega
              rw [hdr] at hn
              unfold bytes_of_bits at hn
              have hmod : ((8 + header * 8) % 8 == 0) = true := by
                have hz : (8 + header * 8) % 8 = 0 := by omega
                simp [hz]
              rw [hmod, if_pos rfl] at hn
              omega

/-- Oracle for the C4 witness: the FSE table build consumes 0 bytes, the
padding sentinel is found at once, and the reader exhausts after the
first state update. -/
def oraOk : FSEOracle :=
  ⟨.ok 0, fun _ => 1, fun _ => 1, fun _ => 1, fun _ => -1⟩

/-- Witness for C4: a successful FSE-path run on source `[0]` consumes
`1 = 1 + 0` bytes. -/
theorem read_weights_fse_bytes_witness : (1 : Nat) = 1 + 0 :=
  read_weights_fse_bytes (by decide)
    (show read_weights oraOk [0] = .ok ([1, 1], 1) from rfl)

/-! ### The 255-weight cap of the dual-cursor FSE loop (claim C2) -/

/-- Under a never-exhausting bit reader, the dual-cursor loop always stops
with `TooManyWeights`, reporting 256 accumulated weights. -/
theorem weights_loop_no_exhaust (sym1 sym2 : Nat → Nat) (rem : Nat → Int)
    (hrem : ∀ t, -1 < rem t) :
    ∀ (fuel i1 i2 : Nat) (acc : List Nat), acc.length % 2 = 0 →
      acc.length ≤ 254 → 256 ≤ acc.length + 2 * fuel →
      weights_loop sym1 sym2 rem fuel i1 i2 acc
        = .error (.TooManyWeights 256) := by
  intro fuel
  induction fuel with
  | zero =>
    intro i1 i2 acc h1 h2 h3
    exact absurd h3 (by omega)
  | succ fuel ih =>
    intro i1 i2 acc h1 h2 h3
    simp only [weights_loop]
    rw [if_neg (by have := hrem (i1 + 1 + i2); omega),
      if_neg (by have := hrem (i1 + 1 + (i2 + 1)); omega)]
    have hlen2 : (acc ++ [sym1 i1] ++ [sym2 i2]).length = acc.length + 2 := by
      simp
    by_cases hcap : (acc ++ [sym1 i1] ++ [sym2 i2]).length > 255
    · rw [if_pos hcap]
      rw [hlen2] at hcap
      have : acc.length = 254 := by omega
      rw [hlen2, this]
    · rw [if_neg hcap]
      rw [hlen2] at hcap
      exact ih _ _ _ (by rw [hlen2]; omega) (by rw [hlen2]; omega)
        (by rw [hlen2]; omega)

/-- Whenever the dual-cursor loop returns successfully from a state with an
even accumulator of at most 254 weights, at most 257 weights come back
(two final-state pushes may follow the 255-cap check). -/
theorem weights_loop_ok_length (sym1 sym2 : Nat → Nat) (rem : Nat → Int) :
    ∀ (fuel i1 i2 : Nat) (acc ws : List Nat), acc.length % 2 = 0 →
      acc.length ≤ 254 →
      weights_loop sym1 sym2 rem fuel i1 i2 acc = .ok ws →
      ws.length ≤ 257 := by
  intro fuel
  induction fuel with
  | zero =>
    intro i1 i2 acc ws h1 h2 h
    simp [weights_loop] at h
  | succ fuel ih =>
    intro i1 i2 acc ws h1 h2 h
    simp only [weights_loop] at h
    split at h
    · rw [Except.ok.injEq] at h
      subst h
      simp
      omega
    · split at h
      · rw [Except.ok.injEq] at h
        subst h
        simp
        omega
      · split at h
        · simp at h
        next hcap =>
          have hlen2 : (acc ++ [sym1 i1] ++ [sym2 i2]).length = acc.length + 2 := by
            simp
          rw [hlen2] at hcap
          exact ih _ _ _ _ (by rw [hlen2]; omega) (by rw [hlen2]; omega) h

/-- C2 counterexample oracle: the FSE table header consumes no bytes, the
sentinel is the first bit, every decoded symbol is the weight 1, and the
reader holds 255 further bits, one consumed per state update
(`bits_remaining` after `t` updates is `255 - t`). -/
def oraC2 : FSEOracle :=
  ⟨.ok 0, fun _ => 1, fun _ => 1, fun _ => 1, fun t => 255 - (t : Int)⟩

/-- Counterexample to C2 as stated: on the source `[1, 0]` with the above
collaborator behaviour, `read_weights` decodes 256 weights before the
reader is exhausted and returns success with 257 weights stored — it
neither fails with `TooManyWeights` nor stays within 255 stored
weights. -/
theorem too_many_weights_cex :
    (read_weights oraC2 [1, 0]).toOption.map (fun p => p.1.length)
      = some 257 := rfl

/-- C2 (amended): `read_weights` never returns success with more than 257
weights stored (the 255-cap is enforced at iteration boundaries of the
dual-cursor loop, but up to three weights are pushed inside the final
iteration, so success can carry 256 or 257 weights); and when the bit
reader never exhausts, the dual-cursor loop always fails with
`TooManyWeights` reporting 256 weights. -/
theorem too_many_weights_amended :
    (∀ (o : FSEOracle) (source ws : List Nat) (n : Nat),
      (∀ b ∈ source, b < 256) →
      read_weights o source = .ok (ws, n) → ws.length ≤ 257) ∧
    (∀ (sym1 sym2 : Nat → Nat) (rem : Nat → Int), (∀ t, -1 < rem t) →
      weights_loop sym1 sym2 rem 129 0 0 []
        = .error (.TooManyWeights 256)) := by
  constructor
  · intro o source ws n hb h
    match source with
    | [] => simp [read_weights] at h
    | header :: rest =>
      simp only [read_weights] at h
      by_cases hh : header ≤ 127
      · rw [if_pos hh] at h
        split at h
        next hlen => simp at h
        next hlen =>
          split at h
          next e heq => simp at h
          next used heq =>
            split at h
            next hused => simp at h
            next hused =>
              split at h
              next hcl => simp at h
              next hcl =>
                split at h
                next e heq2 => simp at h
                next k heq2 =>
                  split at h
                  next e heq3 => simp at h
                  next ws2 heq3 =>
                    rw [Except.ok.injEq, Prod.mk.injEq] at h
                    have hws : ws2 = ws := h.1
                    subst hws
                    exact weights_loop_ok_length o.sym1 o.sym2 o.rem
                      129 0 0 [] ws2 (by simp) (by simp) heq3
      · rw [if_neg hh] at h
        have hhead : header < 256 := hb header (List.mem_cons_self _ _)
        split at h
        all_goals
          split at h
          next hlen2 => simp at h
          next hlen2 =>
            rw [Except.ok.injEq, Prod.mk.injEq] at h
            obtain ⟨hws, -⟩ := h
            subst hws
            simp
            omega
  · intro sym1 sym2 rem hrem
    exact weights_loop_no_exhaust sym1 sym2 rem hrem 129 0 0 []
      (by simp) (by simp) (by simp)

/-- Witness for the amended C2: a successful 2-weight run is within the
257 bound, and a never-exhausting reader yields `TooManyWeights 256`. -/
theorem too_many_weights_amended_witness :
    ([1, 1] : List Nat).length ≤ 257 ∧
    weights_loop (fun _ => 1) (fun _ => 1) (fun _ => 0) 129 0 0 []
      = .error (.TooManyWeights 256) :=
  ⟨too_many_weights_amended.1 oraOk [0] [1, 1] 1 (by decide) rfl,
    too_many_weights_amended.2 (fun _ => 1) (fun _ => 1) (fun _ => 0)
      (fun t => show (-1 : Int) < 0 by decide)⟩

/-! ### The padding-skip loop (claim C8) -/

theorem skip_go_found (padbit : Nat → Nat) :
    ∀ (d s : Nat), s + d ≤ 8 →
      (∀ j, s ≤ j → j < s + d → padbit j % 2 ≠ 1) →
      padbit (s + d) % 2 = 1 →
      skip_padding_go padbit (9 - s) s = s + d + 1 := by
  intro d
  induction d with
  | zero =>
    intro s hs hz h1
    have hfuel : 9 - s = (8 - s) + 1 := by omega
    have hstep : skip_padding_go padbit ((8 - s) + 1) s
        = if padbit s % 2 = 1 ∨ s + 1 > 8 then s + 1
          else skip_padding_go padbit (8 - s) (s + 1) := rfl
    rw [Nat.add_zero] at h1
    rw [hfuel, hstep, if_pos (Or.inl h1)]
  | succ d ihd =>
    intro s hs hz h1
    have hfuel : 9 - s = (9 - (s + 1)) + 1 := by omega
    have hstep : skip_padding_go padbit ((9 - (s + 1)) + 1) s
        = if padbit s % 2 = 1 ∨ s + 1 > 8 then s + 1
          else skip_padding_go padbit (9 - (s + 1)) (s + 1) := rfl
    have h0 : padbit s % 2 ≠ 1 := hz s (Nat.le_refl s) (by omega)
    rw [hfuel, hstep, if_neg (not_or.mpr ⟨h0, by omega⟩)]
    have hres := ihd (s + 1) (by omega)
      (fun j hj1 hj2 => hz j (by omega) (by omega))
      (by have heq : s + 1 + d = s + (d + 1) := by omega
          rw [heq]
          exact h1)
    rw [hres]
    omega

theorem skip_go_allzero (padbit : Nat → Nat) :
    ∀ (d s : Nat), s + d = 8 →
      (∀ j, s ≤ j → j < 8 → padbit j % 2 ≠ 1) →
      skip_padding_go padbit (9 - s) s = 9 := by
  intro d
  induction d with
  | zero =>
    intro s hs hz
    have hs8 : s = 8 := by omega
    subst hs8
    have hstep : skip_padding_go padbit 1 8
        = if padbit 8 % 2 = 1 ∨ 8 + 1 > 8 then 8 + 1
          else skip_padding_go padbit 0 (8 + 1) := rfl
    show skip_padding_go padbit 1 8 = 9
    rw [hstep, if_pos (Or.inr (by omega))]
  | succ d ihd =>
    intro s hs hz
    have hfuel : 9 - s = (9 - (s + 1)) + 1 := by omega
    have hstep : skip_padding_go padbit ((9 - (s + 1)) + 1) s
        = if padbit s % 2 = 1 ∨ s + 1 > 8 then s + 1
          else skip_padding_go padbit (9 - (s + 1)) (s + 1) := rfl
    have h0 : padbit s % 2 ≠ 1 := hz s (Nat.le_refl s) (by omega)
    rw [hfuel, hstep, if_neg (not_or.mpr ⟨h0, by omega⟩)]
    exact ihd (s + 1) (by omega) (fun j hj1 hj2 => hz j (by omega) hj2)

/-- When the sentinel `1` bit appears at position `z ≤ 7` (after `z` zero
bits), the skip succeeds after consuming `z + 1` bits. -/
theorem skip_padding_ok (padbit : Nat → Nat) {z : Nat} (hz : z ≤ 7)
    (h0 : ∀ j, j < z → padbit j % 2 = 0) (h1 : padbit z % 2 = 1) :
    skip_padding padbit = .ok (z + 1) := by
  have hgo : skip_padding_go padbit 9 0 = z + 1 := by
    have := skip_go_found padbit z 0 (by omega)
      (fun j hj1 hj2 => by
        have := h0 j (by omega)
        omega)
      (by simpa using h1)
    simpa using this
  unfold skip_padding
  rw [hgo, if_neg (by omega)]

/-- When the first 8 bits of the stream are all zero, the skip fails with
`ExtraPadding` after consuming 9 bits. -/
theorem skip_padding_err (padbit : Nat → Nat)
    (h0 : ∀ j, j < 8 → padbit j % 2 = 0) :
    skip_padding padbit = .error (.ExtraPadding 9) := by
  have hgo : skip_padding_go padbit 9 0 = 9 := by
    have := skip_go_allzero padbit 8 0 (by omega)
      (fun j hj1 hj2 => by
        have := h0 j hj2
        omega)
    simpa using this
  unfold skip_padding
  rw [hgo, if_pos (by omega)]

/-- C8: in the FSE-compressed path, the padding skip consumes bits one at a
time until the sentinel `1` is found and proceeds when at most 8 bits
were consumed in total (the sentinel is discarded with them); when the
skip would have to consume more than 8 bits — i.e. the first 8 bits are
all zero — it fails with `ExtraPadding` (skipped_bits = 9), and
`read_weights` reports exactly that error. -/
theorem padding_skip_spec (padbit : Nat → Nat) :
    (∀ z, z ≤ 7 → (∀ j, j < z → padbit j % 2 = 0) → padbit z % 2 = 1 →
      skip_padding padbit = .ok (z + 1)) ∧
    ((∀ j, j < 8 → padbit j % 2 = 0) →
      skip_padding padbit = .error (.ExtraPadding 9)) ∧
    (∀ (o : FSEOracle) (header : Nat) (rest : List Nat) (used : Nat),
      header ≤ 127 → ¬ rest.length < header →
      o.build = .ok used → ¬ used > header →
      (∀ j, j < 8 → o.padbit j % 2 = 0) →
      read_weights o (header :: rest) = .error (.ExtraPadding 9)) := by
  refine ⟨fun z hz h0 h1 => skip_padding_ok padbit hz h0 h1,
    fun h0 => skip_padding_err padbit h0, ?_⟩
  intro o header rest used hh hlen hbuild hused h0
  simp only [read_weights]
  rw [if_pos hh, if_neg hlen]
  simp only [hbuild]
  rw [if_neg hused, if_neg (by omega), skip_padding_err o.padbit h0]

/-- Witness for C8: a stream starting with a `1` bit proceeds consuming one
bit; an all-zero stream makes `read_weights` fail with `ExtraPadding`. -/
theorem padding_skip_spec_witness :
    skip_padding (fun _ => 1) = .ok 1 ∧
    read_weights ⟨.ok 0, fun _ => 0, fun _ => 1, fun _ => 1, fun _ => -1⟩ [0]
      = .error (.ExtraPadding 9) := by
  constructor
  · exact (padding_skip_spec (fun _ => 1)).1 0 (by omega)
      (fun j hj => absurd hj (by omega)) (by decide)
  · exact (padding_skip_spec (fun _ => 0)).2.2
      ⟨.ok 0, fun _ => 0, fun _ => 1, fun _ => 1, fun _ => -1⟩ 0 [] 0
      (by decide) (by decide) rfl (by decide)
      (fun j hj => rfl)

/-- C9: the body of `HuffmanDecoder::reset` zeroes `state` and, when a new
table is supplied, rebinds the decoder to it (otherwise the old binding
is kept).  In the source, however, `reset` takes its receiver by value
(`mut self`) and returns `()`, so this zeroed and rebound decoder is a
local copy that is dropped when `reset` returns: the caller can observe
neither the zeroed state nor the new binding. -/
theorem reset_zeroes_state (d : HuffmanDecoderSt) (nt : HuffmanTable) :
    (HuffmanDecoder_reset d (some nt)).state = 0 ∧
    (HuffmanDecoder_reset d (some nt)).table = nt ∧
    (HuffmanDecoder_reset d none).state = 0 ∧
    (HuffmanDecoder_reset d none).table = d.table :=
  ⟨rfl, rfl, rfl, rfl⟩

end Huff0

